import Mathlib

set_option linter.unusedVariables false

/-!
Verification development for the rule-checking core of a Python static
style checker (`code_analyzer.py`, class `StaticCodeAnalyzer`).

Modelling conventions:
* a raw text line is a `List Char`; reading a file keeps each line exactly
  as stored, trailing newline included (`readlines`);
* the external tree builder (`ast.parse` followed by `ast.walk`) is an
  input: a `PyFile` carries either `some nodes` (the walked node sequence)
  or `none` (the builder raised `SyntaxError`);
* Python regular expressions used by the checks are rendered as explicit
  decidable existentials over split points of the line, which coincides
  with `re.match` semantics for the patterns in question;
* the per-line issue set is rendered as an insertion-ordered list without
  duplicates (a deterministic refinement of Python set iteration order);
* `make_analyze` returns `Except`; an uncaught Python exception becomes an
  `error` value carrying the message and the registry state at that point.
-/

/-- Python whitespace (the `\x5cs` class and `str.strip`), ASCII range. -/
def isPySpace (c : Char) : Bool :=
  c == ' ' || c == '\t' || c == '\n' || c == '\r' || c == '\x0b' || c == '\x0c'

/-- `line[i]` for an in-range non-negative Python index (default is never
reached for the uses below, which all stay in range). -/
def pyGetD (line : List Char) (i : Nat) : Char :=
  line.getD i '\x00'

/-- `line[i - 1]` under Python semantics: for `i = 0` this is `line[-1]`,
the last character of the line. -/
def pyPrev (line : List Char) (i : Nat) : Char :=
  if i = 0 then pyGetD line (line.length - 1) else pyGetD line (i - 1)

/-- The slice `line[a:b]` for `0 ≤ a ≤ b`. -/
def pySlice (line : List Char) (a b : Nat) : List Char :=
  (line.take b).drop a

/-- `line.lstrip()`. -/
def pyLstrip (line : List Char) : List Char :=
  line.dropWhile isPySpace

/-- `line.strip()`. -/
def pyStrip (line : List Char) : List Char :=
  ((line.dropWhile isPySpace).reverse.dropWhile isPySpace).reverse

/-- `enumerate(lines, start=k)`. -/
def enumFrom (k : Nat) : List (List Char) → List (Nat × List Char)
  | [] => []
  | x :: xs => (k, x) :: enumFrom (k + 1) xs

/-- `file.readlines()`: split the raw text after every newline character,
keeping the newline at the end of each stored line; a final segment
without a newline is kept as is. -/
def readlines : List Char → List (List Char)
  | [] => []
  | c :: rest =>
    if c = '\n' then ['\n'] :: readlines rest
    else
      match readlines rest with
      | [] => [[c]]
      | l :: ls => (c :: l) :: ls

/-- Result of `find_boundaries`: indexes of the opening and closing quote
of every string literal on the line, and the offset of a trailing comment
when one exists. -/
structure Boundaries where
  head : List Nat
  tail : List Nat
  comment : Option Nat
deriving Repr, DecidableEq

/-- The list comprehension
`[i for i in range(len(line)) if line[i] in (quote1, quote2, hash)]`. -/
def quoteIdxs (line : List Char) : List Nat :=
  (List.range line.length).filter fun i =>
    pyGetD line i == '\'' || pyGetD line i == '"' || pyGetD line i == '#'

/-- The scanning loop of `find_boundaries` over the remaining candidate
indexes, given the current `string_opened` flag and active `quote`. -/
def fbLoop (line : List Char) : List Nat → Bool → Char → Boundaries
  | [], _, _ => ⟨[], [], none⟩
  | i :: rest, opened, quote =>
    if pyGetD line i = '#' ∧ opened = false then ⟨[], [], some i⟩
    else if opened = false then
      ⟨i :: (fbLoop line rest true (pyGetD line i)).head,
        (fbLoop line rest true (pyGetD line i)).tail,
        (fbLoop line rest true (pyGetD line i)).comment⟩
    else if pyGetD line i ≠ quote ∨ pyPrev line i = '\\' then
      fbLoop line rest opened quote
    else
      ⟨(fbLoop line rest false quote).head,
        i :: (fbLoop line rest false quote).tail,
        (fbLoop line rest false quote).comment⟩

/-- `StaticCodeAnalyzer.find_boundaries`. -/
def find_boundaries (line : List Char) : Boundaries :=
  fbLoop line (quoteIdxs line) false '\x00'

/-- One stored finding: a bare rule code, or a code paired with the name it
reports on (the Python code stores either a string or a pair in the set). -/
inductive Issue
  | code (c : String)
  | coded (c : String) (name : String)
deriving Repr, DecidableEq

/-- Per-file slice of the registry: line number to finding list, in
dictionary insertion order. -/
abbrev FileIssues := List (Nat × List Issue)

/-- `self.issues`: file name to per-file slice, in insertion order. -/
abbrev Registry := List (String × FileIssues)

/-- Lookup of a file entry in the registry. -/
def findFile (f : String) : Registry → Option FileIssues
  | [] => none
  | (g, ls) :: rest => if g = f then some ls else findFile f rest

/-- Lookup of a line entry in a per-file slice. -/
def findLine (l : Nat) : FileIssues → Option (List Issue)
  | [] => none
  | (m, s) :: rest => if m = l then some s else findLine l rest

/-- The finding list stored at `issues[f][l]` (empty if absent). -/
def lineIssues (reg : Registry) (f : String) (l : Nat) : List Issue :=
  match findFile f reg with
  | none => []
  | some ls => (findLine l ls).getD []

/-- Whether `issues[f][l]` exists as a key. -/
def hasLine (reg : Registry) (f : String) (l : Nat) : Bool :=
  match findFile f reg with
  | none => false
  | some ls => (findLine l ls).isSome

/-- `set.add` on one line entry: a no-op when the finding is present. -/
def addLine (l : Nat) (iss : Issue) : FileIssues → FileIssues
  | [] => []
  | (m, s) :: rest =>
    if m = l then (m, if s.contains iss then s else s ++ [iss]) :: rest
    else (m, s) :: addLine l iss rest

/-- `self.issues[f][l].add(iss)` (the pipeline only adds to keys created
by `get_code`, so the missing-key branches are never reached there). -/
def addIssue (f : String) (l : Nat) (iss : Issue) : Registry → Registry
  | [] => []
  | (g, ls) :: rest =>
    if g = f then (g, addLine l iss ls) :: rest
    else (g, ls) :: addIssue f l iss rest

/-- `self.issues[name] = ` the dictionary with keys `1 .. n` and empty
sets, as built by `get_code` for a file of `n` lines. -/
def initLines (n : Nat) : FileIssues :=
  (List.range' 1 n).map fun i => (i, [])

/-- `self.max_len`. -/
def max_len : Nat := 79

/-- Line predicate of `check_s001`: `len(line) > self.max_len`. -/
def s001_line (line : List Char) : Bool :=
  decide (line.length > max_len)

/-- Line predicate of `check_s002`. -/
def s002_line (line : List Char) : Bool :=
  decide ((pyLstrip line).length > 0) &&
    decide ((line.length - (pyLstrip line).length) % 4 > 0)

/-- `[j for j in range(len(line)) if line[j] == semicolon]`. -/
def semiIdxs (line : List Char) : List Nat :=
  (List.range line.length).filter fun j => pyGetD line j == ';'

/-- The `found` flag computed by `check_s003` for one semicolon index. -/
def s003_found (line : List Char) (j : Nat) : Bool :=
  (((find_boundaries line).head.zip (find_boundaries line).tail).any fun p =>
      decide (p.1 < j) && decide (j < p.2)) ||
    (match (find_boundaries line).comment with
     | some c => decide (j > c)
     | none => false)

/-- The semicolon loop of `check_s003`: report once and stop at the first
qualifying semicolon. -/
def s003_loop (line : List Char) : List Nat → Bool
  | [] => false
  | j :: rest => if s003_found line j then s003_loop line rest else true

/-- Line predicate of `check_s003`. -/
def s003_line (line : List Char) : Bool :=
  s003_loop line (semiIdxs line)

/-- Line predicate of `check_s004`. -/
def s004_line (line : List Char) : Bool :=
  match (find_boundaries line).comment with
  | none => false
  | some pos =>
    decide (pos ≠ 0) &&
      (decide (pos = 1) ||
        (decide (pos > 2) && decide (pySlice line (pos - 2) pos ≠ [' ', ' '])))

/-- Case-insensitive test that the next four characters spell `TODO`. -/
def todoHere (b : List Char) : Bool :=
  (b.take 4).map Char.toLower == ['t', 'o', 'd', 'o']

/-- Tail of the `check_s005` pattern: at least one whitespace character,
then `TODO` (any case), then at least one whitespace character. -/
def todoMid (b : List Char) : Bool :=
  (List.range (b.length + 1)).any fun k =>
    decide (1 ≤ k) && (b.take k).all isPySpace &&
      todoHere (b.drop k) &&
      (match (b.drop k).drop 4 with
       | [] => false
       | c :: _ => isPySpace c)

/-- `re.match` of the `check_s005` pattern against `line[pos:]`: a hash
mark, then any run of non-newline characters, then whitespace-delimited
`TODO` (case-insensitive); the trailing wildcard of the pattern is
irrelevant since `re.match` is not anchored at the end. -/
def todo_match : List Char → Bool
  | [] => false
  | c :: rest =>
    c == '#' &&
      ((List.range (rest.length + 1)).any fun p =>
        (rest.take p).all (fun d => d != '\n') && todoMid (rest.drop p))

/-- Line predicate of `check_s005`. -/
def s005_line (line : List Char) : Bool :=
  match (find_boundaries line).comment with
  | none => false
  | some pos => todo_match (line.drop pos)

/-- ASCII lower-case letter or digit, the class `[a-z0-9]`. -/
def isLowerDigit (c : Char) : Bool :=
  (decide ('a' ≤ c) && decide (c ≤ 'z')) || (decide ('0' ≤ c) && decide (c ≤ '9'))

/-- ASCII upper-case letter. -/
def isAsciiUpper (c : Char) : Bool :=
  decide ('A' ≤ c) && decide (c ≤ 'Z')

/-- `StaticCodeAnalyzer.is_snake_case`: full match of one or more
characters from lower-case letters, digits and underscore. -/
def is_snake_case (s : List Char) : Bool :=
  !s.isEmpty && s.all fun c => isLowerDigit c || c == '_'

/-- Greedy segment decomposition of the `is_camel_case` pattern: one or
more groups of an upper-case letter followed by one or more lower-case
letters or digits (greedy matching is exact here because the group
alternatives start with disjoint character classes). -/
def camelChunks : List Char → Bool
  | [] => true
  | c :: rest =>
    isAsciiUpper c && !(rest.takeWhile isLowerDigit).isEmpty &&
      camelChunks (rest.dropWhile isLowerDigit)
termination_by s => s.length
decreasing_by
  simp only [List.length_cons]
  have h := (@List.dropWhile_sublist Char rest isLowerDigit).length_le
  omega

/-- `StaticCodeAnalyzer.is_camel_case`. -/
def is_camel_case (s : List Char) : Bool :=
  !s.isEmpty && camelChunks s

/-- Match of the `check_s007` pattern for keyword `kw` (`def` or `class`):
optional leading whitespace, the keyword, two or more whitespace
characters, at least one further character, then a colon.  The character
class of the pattern after the keyword gap accepts every character, so the
optional parenthesis group is subsumed by this reading. -/
def s007_match (kw : List Char) (line : List Char) : Bool :=
  (List.range (line.length + 1)).any fun p =>
    (pySlice line 0 p).all isPySpace &&
      pySlice line p (p + kw.length) == kw &&
      ((List.range (line.length + 1)).any fun q =>
        decide (p + kw.length + 2 ≤ q) &&
          (pySlice line (p + kw.length) q).all isPySpace &&
          ((List.range line.length).any fun t =>
            decide (q < t) && pyGetD line t == ':'))

/-- Assignment context of a walked node (`ast.Store` or not). -/
inductive Ctx
  | store
  | load
deriving Repr, DecidableEq

/-- Kind of a default-value expression node, as far as `check_s012`
inspects it (`ast.List`, `ast.Dict`, `ast.Set`, anything else). -/
inductive DefaultKind
  | dList
  | dDict
  | dSet
  | dOther
deriving Repr, DecidableEq

/-- One positional argument of a function definition node: name and line. -/
structure ArgInfo where
  arg : String
  lineno : Nat
deriving Repr, DecidableEq

/-- A walked syntax-tree node, restricted to the shapes the structural
checks inspect; every other node kind is `otherNode`.  Built by the
external tree builder (`ast.parse` and `ast.walk`). -/
inductive Node
  | classDef (name : String) (lineno : Nat)
  | functionDef (name : String) (lineno : Nat) (args : List ArgInfo)
      (defaults : List (DefaultKind × Nat))
  | nameNode (id : String) (ctx : Ctx) (lineno : Nat)
  | attributeNode (attr : String) (ctx : Ctx) (lineno : Nat)
  | otherNode
deriving Repr, DecidableEq

/-- Whether a default value node is one of `ast.List`, `ast.Dict`,
`ast.Set`. -/
def isMutableKind : DefaultKind → Bool
  | .dList => true
  | .dDict => true
  | .dSet => true
  | .dOther => false

/-- `check_s008` on one node. -/
def check_s008 (f : String) (node : Node) (reg : Registry) : Registry :=
  match node with
  | .classDef name lineno =>
    if is_camel_case name.toList then reg
    else addIssue f lineno (.coded "S008" name) reg
  | _ => reg

/-- `check_s009` on one node. -/
def check_s009 (f : String) (node : Node) (reg : Registry) : Registry :=
  match node with
  | .functionDef name lineno _ _ =>
    if is_snake_case name.toList then reg
    else addIssue f lineno (.coded "S009" name) reg
  | _ => reg

/-- `check_s010` on one node: one finding per offending positional
argument, at that argument's own line. -/
def check_s010 (f : String) (node : Node) (reg : Registry) : Registry :=
  match node with
  | .functionDef _ _ args _ =>
    args.foldl
      (fun r a =>
        if is_snake_case a.arg.toList then r
        else addIssue f a.lineno (.coded "S010" a.arg) r)
      reg
  | _ => reg

/-- `check_s011` on one node. -/
def check_s011 (f : String) (node : Node) (reg : Registry) : Registry :=
  match node with
  | .nameNode id ctx lineno =>
    if ctx = .store ∧ ¬ is_snake_case id.toList then
      addIssue f lineno (.coded "S011" id) reg
    else reg
  | .attributeNode attr ctx lineno =>
    if ctx = .store ∧ ¬ is_snake_case attr.toList then
      addIssue f lineno (.coded "S011" attr) reg
    else reg
  | _ => reg

/-- `check_s012` on one node: a bare `S012` finding is added into the set
of the default expression's own line for every mutable default. -/
def check_s012 (f : String) (node : Node) (reg : Registry) : Registry :=
  match node with
  | .functionDef _ _ _ defaults =>
    defaults.foldl
      (fun r d => if isMutableKind d.1 then addIssue f d.2 (.code "S012") r else r)
      reg
  | _ => reg

/-- Driver of `check_s001` over the enumerated lines of one file. -/
def check_s001 (f : String) (lines : List (List Char)) (reg : Registry) : Registry :=
  (enumFrom 1 lines).foldl
    (fun r p => if s001_line p.2 then addIssue f p.1 (.code "S001") r else r) reg

/-- Driver of `check_s002`. -/
def check_s002 (f : String) (lines : List (List Char)) (reg : Registry) : Registry :=
  (enumFrom 1 lines).foldl
    (fun r p => if s002_line p.2 then addIssue f p.1 (.code "S002") r else r) reg

/-- Driver of `check_s003`. -/
def check_s003 (f : String) (lines : List (List Char)) (reg : Registry) : Registry :=
  (enumFrom 1 lines).foldl
    (fun r p => if s003_line p.2 then addIssue f p.1 (.code "S003") r else r) reg

/-- Driver of `check_s004`. -/
def check_s004 (f : String) (lines : List (List Char)) (reg : Registry) : Registry :=
  (enumFrom 1 lines).foldl
    (fun r p => if s004_line p.2 then addIssue f p.1 (.code "S004") r else r) reg

/-- Driver of `check_s005`. -/
def check_s005 (f : String) (lines : List (List Char)) (reg : Registry) : Registry :=
  (enumFrom 1 lines).foldl
    (fun r p => if s005_line p.2 then addIssue f p.1 (.code "S005") r else r) reg

/-- The stateful loop of `check_s006`, carrying the blank-line counter. -/
def s006_go (f : String) : List (Nat × List Char) → Nat → Registry → Registry
  | [], _, reg => reg
  | (i, line) :: rest, count, reg =>
    if (pyStrip line).length = 0 then s006_go f rest (count + 1) reg
    else
      s006_go f rest 0
        (if count > 2 then addIssue f i (.code "S006") reg else reg)

/-- Driver of `check_s006`. -/
def check_s006 (f : String) (lines : List (List Char)) (reg : Registry) : Registry :=
  s006_go f (enumFrom 1 lines) 0 reg

/-- Driver of `check_s007`: the `def` pattern is tried first; on a match
the `class` pattern is not tried. -/
def check_s007 (f : String) (lines : List (List Char)) (reg : Registry) : Registry :=
  (enumFrom 1 lines).foldl
    (fun r p =>
      if s007_match "def".toList p.2 then addIssue f p.1 (.coded "S007" "def") r
      else if s007_match "class".toList p.2 then
        addIssue f p.1 (.coded "S007" "class") r
      else r)
    reg

/-- The per-node body of the `ast.walk` loop in `check_ast`, in source
order of the five structural checks. -/
def runNodeChecks (f : String) (reg : Registry) (node : Node) : Registry :=
  check_s012 f node
    (check_s011 f node (check_s010 f node (check_s009 f node (check_s008 f node reg))))

/-- `check_ast`: the external tree builder either yields the walked node
sequence or raises; the raise is not caught anywhere in the source. -/
def check_ast (f : String) (tree : Option (List Node)) (reg : Registry) :
    Except String Registry :=
  match tree with
  | none => Except.error ("SyntaxError: invalid syntax in " ++ f)
  | some nodes => Except.ok (nodes.foldl (runNodeChecks f) reg)

/-- One input file as the core sees it: identifier, stored raw lines, and
the outcome of the external tree builder (`none` when `ast.parse` raises
`SyntaxError` on the concatenated source text). -/
structure PyFile where
  name : String
  lines : List (List Char)
  tree : Option (List Node)
deriving Repr, DecidableEq

/-- The seven lexical checks of the `make_analyze` loop for one file, in
source order. -/
def runLexical (reg : Registry) (f : PyFile) : Registry :=
  check_s007 f.name f.lines
    (check_s006 f.name f.lines
      (check_s005 f.name f.lines
        (check_s004 f.name f.lines
          (check_s003 f.name f.lines
            (check_s002 f.name f.lines (check_s001 f.name f.lines reg))))))

/-- The registry right after `get_code`: every loaded file has an entry
for each of its line numbers, all empty. -/
def initRegistry (files : List PyFile) : Registry :=
  files.map fun f => (f.name, initLines f.lines.length)

/-- The per-file loop of `make_analyze`.  An error of `check_ast`
propagates as an uncaught exception: the loop stops, later files are never
analyzed, and the error value carries the registry state at that moment. -/
def analyzeLoop : Registry → List PyFile → Except (String × Registry) Registry
  | reg, [] => Except.ok reg
  | reg, f :: rest =>
    let reg1 := runLexical reg f
    match check_ast f.name f.tree reg1 with
    | Except.error e => Except.error (e, reg1)
    | Except.ok reg2 => analyzeLoop reg2 rest

/-- `make_analyze` over already-loaded files. -/
def make_analyze (files : List PyFile) : Except (String × Registry) Registry :=
  analyzeLoop (initRegistry files) files

/-- Lexicographic order on character lists, the order Python uses on
strings. -/
def strLe : List Char → List Char → Bool
  | [], _ => true
  | _ :: _, [] => false
  | a :: as, b :: bs => if a = b then strLe as bs else decide (a < b)

/-- Sort relation of `sorted(self.issues.items())` (file keys are distinct
in every registry the pipeline builds, so key order decides). -/
def fileRel (a b : String × FileIssues) : Prop :=
  strLe a.1.toList b.1.toList = true

instance : DecidableRel fileRel := fun a b =>
  inferInstanceAs (Decidable (_ = true))

/-- Sort relation of `sorted(lines.items())`. -/
def lineRel (a b : Nat × List Issue) : Prop :=
  a.1 ≤ b.1

instance : DecidableRel lineRel := fun a b =>
  inferInstanceAs (Decidable (_ ≤ _))

/-- The sort key of `show_msgs` on one finding: the code for a pair, the
whole element for a bare code. -/
def issueKey : Issue → String
  | .code c => c
  | .coded c _ => c

/-- Sort relation of `sorted(issues, key=...)` in `show_msgs`: keys only;
Python sort is stable, so elements with equal codes keep their set
iteration order. -/
def issueRel (a b : Issue) : Prop :=
  strLe (issueKey a).toList (issueKey b).toList = true

instance : DecidableRel issueRel := fun a b =>
  inferInstanceAs (Decidable (_ = true))

/-- One reported record, the data `show_msg` prints for one finding. -/
structure Record where
  file : String
  line : Nat
  code : String
  name : Option String
deriving Repr, DecidableEq

/-- The codes for which `show_msg` renders the associated name. -/
def namedCodes : List String := ["S007", "S008", "S009", "S010", "S011"]

/-- `show_msg`: the record for one finding. -/
def issueToRecord (f : String) (l : Nat) : Issue → Record
  | .code c => ⟨f, l, c, none⟩
  | .coded c n => ⟨f, l, c, if namedCodes.contains c then some n else none⟩

/-- `show_msgs`: files sorted by identifier, lines by number, findings
stably by code; each finding becomes one printed record. -/
def show_msgs (reg : Registry) : List Record :=
  (List.insertionSort fileRel reg).flatMap fun fl =>
    (List.insertionSort lineRel fl.2).flatMap fun ls =>
      (List.insertionSort issueRel ls.2).map (issueToRecord fl.1 ls.1)

/-- The whole run on loaded files: `make_analyze` then `show_msgs`; an
uncaught exception in `make_analyze` means nothing is ever printed. -/
def run (files : List PyFile) : Option (List Record) :=
  match make_analyze files with
  | Except.error _ => none
  | Except.ok reg => some (show_msgs reg)

/-- Wording of claim C9 (reference for the refinement proof): the comment
text contains, case-insensitively, a TODO token with at least one
whitespace character immediately before it and one immediately after. -/
def s005_spec (t : List Char) : Prop :=
  ∃ i, 0 < i ∧ i + 5 ≤ t.length ∧ isPySpace (pyGetD t (i - 1)) = true ∧
    todoHere (t.drop i) = true ∧ isPySpace (pyGetD t (i + 4)) = true

/-- Lexicographic order on reported records: by file identifier, then
line number, then rule code (names are not compared). -/
def recLE (r1 r2 : Record) : Prop :=
  (r1.file ≠ r2.file ∧ strLe r1.file.toList r2.file.toList = true) ∨
    (r1.file = r2.file ∧ r1.line < r2.line) ∨
    (r1.file = r2.file ∧ r1.line = r2.line ∧
      strLe r1.code.toList r2.code.toList = true)

/-- The registry flattened into records without any sorting, for stating
that reporting drops nothing. -/
def allRecords (reg : Registry) : List Record :=
  reg.flatMap fun fl => fl.2.flatMap fun ls => ls.2.map (issueToRecord fl.1 ls.1)

/-- Members of the candidate index list of the scanner. -/
theorem mem_quoteIdxs {line : List Char} {x : Nat} :
    x ∈ quoteIdxs line ↔
      x < line.length ∧
        (pyGetD line x = '\'' ∨ pyGetD line x = '"' ∨ pyGetD line x = '#') := by
  simp [quoteIdxs, List.mem_filter, List.mem_range, or_assoc]

/-- The candidate index list is strictly increasing. -/
theorem quoteIdxs_pairwise (line : List Char) :
    List.Pairwise (· < ·) (quoteIdxs line) :=
  (List.pairwise_lt_range line.length).filter _

/-- Balance invariant of the scanner: when a comment is recorded, the
number of closing quote indexes matches the number of opening ones for the
state the scan started in. -/
theorem fb_balance (line : List Char) :
    ∀ (idxs : List Nat) (opened : Bool) (quote : Char) (c : Nat),
      (fbLoop line idxs opened quote).comment = some c →
      (fbLoop line idxs opened quote).tail.length
        = (fbLoop line idxs opened quote).head.length + (if opened then 1 else 0) := by
  intro idxs
  induction idxs with
  | nil => intro opened quote c h; simp [fbLoop] at h
  | cons i rest ih =>
    intro opened quote c h
    by_cases h1 : pyGetD line i = '#' ∧ opened = false
    · simp only [fbLoop, if_pos h1] at h ⊢
      obtain ⟨-, h2⟩ := h1
      subst h2
      simp
    · by_cases h2 : opened = false
      · simp only [fbLoop, if_neg h1, if_pos h2] at h ⊢
        have := ih true (pyGetD line i) c h
        subst h2
        simp only [if_pos rfl] at this
        simp [this]
      · by_cases h3 : pyGetD line i ≠ quote ∨ pyPrev line i = '\\'
        · simp only [fbLoop, if_neg h1, if_neg h2, if_pos h3] at h ⊢
          exact ih opened quote c h
        · simp only [fbLoop, if_neg h1, if_neg h2, if_neg h3] at h ⊢
          have h2' : opened = true := by cases opened <;> simp_all
          have := ih false quote c h
          subst h2'
          simp only [if_neg Bool.false_ne_true] at this
          simp [this]

/-- Every index the scanner records comes from its candidate list. -/
theorem fb_mem (line : List Char) :
    ∀ (idxs : List Nat) (opened : Bool) (quote : Char),
      (∀ x ∈ (fbLoop line idxs opened quote).head, x ∈ idxs) ∧
        (∀ x ∈ (fbLoop line idxs opened quote).tail, x ∈ idxs) ∧
        (∀ c, (fbLoop line idxs opened quote).comment = some c → c ∈ idxs) := by
  intro idxs
  induction idxs with
  | nil => intro opened quote; simp [fbLoop]
  | cons i rest ih =>
    intro opened quote
    by_cases h1 : pyGetD line i = '#' ∧ opened = false
    · simp only [fbLoop, if_pos h1]
      refine ⟨by simp, by simp, ?_⟩
      intro c hc
      simp at hc
      simp [hc]
    · by_cases h2 : opened = false
      · simp only [fbLoop, if_neg h1, if_pos h2]
        obtain ⟨ha, hb, hc⟩ := ih true (pyGetD line i)
        refine ⟨?_, ?_, ?_⟩
        · intro x hx
          simp only [List.mem_cons] at hx ⊢
          rcases hx with hx | hx
          · exact Or.inl hx
          · exact Or.inr (ha x hx)
        · intro x hx
          exact List.mem_cons_of_mem _ (hb x hx)
        · intro c hcm
          exact List.mem_cons_of_mem _ (hc c hcm)
      · by_cases h3 : pyGetD line i ≠ quote ∨ pyPrev line i = '\\'
        · simp only [fbLoop, if_neg h1, if_neg h2, if_pos h3]
          obtain ⟨ha, hb, hc⟩ := ih opened quote
          exact ⟨fun x hx => List.mem_cons_of_mem _ (ha x hx),
            fun x hx => List.mem_cons_of_mem _ (hb x hx),
            fun c hcm => List.mem_cons_of_mem _ (hc c hcm)⟩
        · simp only [fbLoop, if_neg h1, if_neg h2, if_neg h3]
          obtain ⟨ha, hb, hc⟩ := ih false quote
          refine ⟨?_, ?_, ?_⟩
          · intro x hx
            exact List.mem_cons_of_mem _ (ha x hx)
          · intro x hx
            simp only [List.mem_cons] at hx ⊢
            rcases hx with hx | hx
            · exact Or.inl hx
            · exact Or.inr (hb x hx)
          · intro c hcm
            exact List.mem_cons_of_mem _ (hc c hcm)

/-- The recorded comment offset always points at a hash mark. -/
theorem fb_comment_hash (line : List Char) :
    ∀ (idxs : List Nat) (opened : Bool) (quote : Char) (c : Nat),
      (fbLoop line idxs opened quote).comment = some c →
      pyGetD line c = '#' := by
  intro idxs
  induction idxs with
  | nil => intro opened quote c h; simp [fbLoop] at h
  | cons i rest ih =>
    intro opened quote c h
    by_cases h1 : pyGetD line i = '#' ∧ opened = false
    · simp only [fbLoop, if_pos h1] at h
      simp at h
      subst h
      exact h1.1
    · by_cases h2 : opened = false
      · simp only [fbLoop, if_neg h1, if_pos h2] at h
        exact ih true (pyGetD line i) c h
      · by_cases h3 : pyGetD line i ≠ quote ∨ pyPrev line i = '\\'
        · simp only [fbLoop, if_neg h1, if_neg h2, if_pos h3] at h
          exact ih opened quote c h
        · simp only [fbLoop, if_neg h1, if_neg h2, if_neg h3] at h
          exact ih false quote c h

/-- When a comment is recorded, every recorded quote index lies strictly
before it (the scan stops at the comment). -/
theorem fb_bounds (line : List Char) :
    ∀ (idxs : List Nat) (opened : Bool) (quote : Char) (c : Nat),
      List.Pairwise (· < ·) idxs →
      (fbLoop line idxs opened quote).comment = some c →
      (∀ h ∈ (fbLoop line idxs opened quote).head, h < c) ∧
        (∀ t ∈ (fbLoop line idxs opened quote).tail, t < c) := by
  intro idxs
  induction idxs with
  | nil => intro opened quote c _ h; simp [fbLoop] at h
  | cons i rest ih =>
    intro opened quote c hp h
    have hlt : ∀ x ∈ rest, i < x := fun x hx => (List.pairwise_cons.mp hp).1 x hx
    have hp' : List.Pairwise (· < ·) rest := (List.pairwise_cons.mp hp).2
    by_cases h1 : pyGetD line i = '#' ∧ opened = false
    · simp only [fbLoop, if_pos h1] at h ⊢
      simp
    · by_cases h2 : opened = false
      · simp only [fbLoop, if_neg h1, if_pos h2] at h ⊢
        obtain ⟨ha, hb⟩ := ih true (pyGetD line i) c hp' h
        have hcmem : c ∈ rest := (fb_mem line rest true (pyGetD line i)).2.2 c h
        refine ⟨?_, hb⟩
        intro x hx
        simp only [List.mem_cons] at hx
        rcases hx with hx | hx
        · subst hx; exact hlt c hcmem
        · exact ha x hx
      · by_cases h3 : pyGetD line i ≠ quote ∨ pyPrev line i = '\\'
        · simp only [fbLoop, if_neg h1, if_neg h2, if_pos h3] at h ⊢
          exact ih opened quote c hp' h
        · simp only [fbLoop, if_neg h1, if_neg h2, if_neg h3] at h ⊢
          obtain ⟨ha, hb⟩ := ih false quote c hp' h
          have hcmem : c ∈ rest := (fb_mem line rest false quote).2.2 c h
          refine ⟨ha, ?_⟩
          intro x hx
          simp only [List.mem_cons] at hx
          rcases hx with hx | hx
          · subst hx; exact hlt c hcmem
          · exact hb x hx

/-- `find_boundaries` balance: a recorded comment implies every opened
span was closed. -/
theorem find_boundaries_balance {line : List Char} {c : Nat}
    (h : (find_boundaries line).comment = some c) :
    (find_boundaries line).head.length = (find_boundaries line).tail.length := by
  have := fb_balance line (quoteIdxs line) false '\x00' c h
  simpa [find_boundaries] using this.symm

/-- `find_boundaries` bounds: every recorded quote index lies strictly
before a recorded comment. -/
theorem find_boundaries_bounds {line : List Char} {c : Nat}
    (h : (find_boundaries line).comment = some c) :
    (∀ x ∈ (find_boundaries line).head, x < c) ∧
      (∀ x ∈ (find_boundaries line).tail, x < c) :=
  fb_bounds line (quoteIdxs line) false '\x00' c (quoteIdxs_pairwise line) h

/-- `find_boundaries` membership: every recorded index is a candidate
index of the line. -/
theorem find_boundaries_mem (line : List Char) :
    (∀ x ∈ (find_boundaries line).head, x ∈ quoteIdxs line) ∧
      (∀ x ∈ (find_boundaries line).tail, x ∈ quoteIdxs line) ∧
      (∀ c, (find_boundaries line).comment = some c → c ∈ quoteIdxs line) :=
  fb_mem line (quoteIdxs line) false '\x00'

/-- The comment offset of `find_boundaries` points at a hash mark. -/
theorem find_boundaries_hash {line : List Char} {c : Nat}
    (h : (find_boundaries line).comment = some c) : pyGetD line c = '#' :=
  fb_comment_hash line (quoteIdxs line) false '\x00' c h

/-- Members of the semicolon index list. -/
theorem mem_semiIdxs {line : List Char} {j : Nat} :
    j ∈ semiIdxs line ↔ j < line.length ∧ pyGetD line j = ';' := by
  simp [semiIdxs, List.mem_filter, List.mem_range]

/-- The report-and-stop loop of `check_s003` fires exactly when some
semicolon index is not excused by the `found` flag. -/
theorem s003_loop_any (line : List Char) :
    ∀ js : List Nat,
      (s003_loop line js = true ↔ ∃ j ∈ js, s003_found line j = false) := by
  intro js
  induction js with
  | nil => simp [s003_loop]
  | cons j rest ih =>
    simp only [s003_loop]
    by_cases h : s003_found line j = true
    · simp only [if_pos h, ih, List.mem_cons]
      constructor
      · rintro ⟨x, hx, hfx⟩
        exact ⟨x, Or.inr hx, hfx⟩
      · rintro ⟨x, hx | hx, hfx⟩
        · subst hx
          rw [h] at hfx
          cases hfx
        · exact ⟨x, hx, hfx⟩
    · have h' : s003_found line j = false := by
        cases hv : s003_found line j
        · rfl
        · exact absurd hv h
      simp only [if_neg h]
      constructor
      · intro _
        exact ⟨j, List.mem_cons_self j rest, h'⟩
      · intro _
        trivial

/-- Unfolding of the `found` flag of `check_s003`. -/
theorem s003_found_false_iff (line : List Char) (j : Nat) :
    s003_found line j = false ↔
      ((∀ p ∈ (find_boundaries line).head.zip (find_boundaries line).tail,
          ¬(p.1 < j ∧ j < p.2)) ∧
        ∀ c, (find_boundaries line).comment = some c → ¬ c < j) := by
  rw [s003_found]
  rcases hc : (find_boundaries line).comment with _ | c
  · simp [List.any_eq_false]
  · simp [List.any_eq_false, not_and, gt_iff_lt]

/-- Claim C7: for every line, a recorded comment offset points at a hash
mark, every opened span was closed, every recorded quote index lies
strictly before the offset (the scan stops at the first hash mark seen
outside a string, so nothing is recorded after it), and consequently the
offset lies outside every reported string span. -/
theorem c7_comment_offset (line : List Char) (c : Nat)
    (h : (find_boundaries line).comment = some c) :
    pyGetD line c = '#' ∧
      (find_boundaries line).head.length = (find_boundaries line).tail.length ∧
      (∀ x ∈ (find_boundaries line).head, x < c) ∧
      (∀ x ∈ (find_boundaries line).tail, x < c) ∧
      (∀ p ∈ (find_boundaries line).head.zip (find_boundaries line).tail,
          ¬(p.1 ≤ c ∧ c ≤ p.2)) := by
  obtain ⟨hh, ht⟩ := find_boundaries_bounds h
  refine ⟨find_boundaries_hash h, find_boundaries_balance h, hh, ht, ?_⟩
  intro p hp hcon
  have h2 : p.2 ∈ (find_boundaries line).tail := (List.of_mem_zip hp).2
  have := ht p.2 h2
  omega

/-- Witness for C7 on the line `"a" # x;`. -/
theorem c7_comment_offset_witness :
    (find_boundaries ("\"a\" # x;".toList)).comment = some 4 ∧
      (pyGetD ("\"a\" # x;".toList) 4 = '#' ∧
        (find_boundaries ("\"a\" # x;".toList)).head.length
            = (find_boundaries ("\"a\" # x;".toList)).tail.length ∧
        (∀ x ∈ (find_boundaries ("\"a\" # x;".toList)).head, x < 4) ∧
        (∀ x ∈ (find_boundaries ("\"a\" # x;".toList)).tail, x < 4) ∧
        (∀ p ∈ (find_boundaries ("\"a\" # x;".toList)).head.zip
            (find_boundaries ("\"a\" # x;".toList)).tail,
            ¬(p.1 ≤ 4 ∧ 4 ≤ p.2))) :=
  ⟨by decide, c7_comment_offset ("\"a\" # x;".toList) 4 (by decide)⟩

/-- Claim C8: the stray-semicolon check fires on a line exactly when some
semicolon lies outside all completed string spans and before any comment
offset; the loop reports at most one finding per line. -/
theorem c8_stray_semicolon_iff (line : List Char) :
    s003_line line = true ↔
      ∃ j, j < line.length ∧ pyGetD line j = ';' ∧
        (∀ p ∈ (find_boundaries line).head.zip (find_boundaries line).tail,
            ¬(p.1 ≤ j ∧ j ≤ p.2)) ∧
        (∀ c, (find_boundaries line).comment = some c → j < c) := by
  simp only [s003_line]
  rw [s003_loop_any]
  constructor
  · rintro ⟨j, hj, hf⟩
    obtain ⟨hjl, hjc⟩ := mem_semiIdxs.mp hj
    obtain ⟨hpairs, hcom⟩ := (s003_found_false_iff line j).mp hf
    refine ⟨j, hjl, hjc, ?_, ?_⟩
    · intro p hp hcon
      have h1 : p.1 ∈ (find_boundaries line).head := (List.of_mem_zip hp).1
      have h2 : p.2 ∈ (find_boundaries line).tail := (List.of_mem_zip hp).2
      have hq1 := (mem_quoteIdxs.mp ((find_boundaries_mem line).1 p.1 h1)).2
      have hq2 := (mem_quoteIdxs.mp ((find_boundaries_mem line).2.1 p.2 h2)).2
      have hne1 : j ≠ p.1 := by
        intro he
        rw [he] at hjc
        rcases hq1 with h | h | h <;> rw [hjc] at h <;> exact absurd h (by decide)
      have hne2 : j ≠ p.2 := by
        intro he
        rw [he] at hjc
        rcases hq2 with h | h | h <;> rw [hjc] at h <;> exact absurd h (by decide)
      refine hpairs p hp ⟨?_, ?_⟩ <;> omega
    · intro c hc
      have hle := hcom c hc
      have hh := find_boundaries_hash hc
      have hne : j ≠ c := by
        intro he
        rw [he] at hjc
        rw [hjc] at hh
        exact absurd hh (by decide)
      omega
  · rintro ⟨j, hjl, hjc, hpairs, hcom⟩
    refine ⟨j, mem_semiIdxs.mpr ⟨hjl, hjc⟩, ?_⟩
    apply (s003_found_false_iff line j).mpr
    refine ⟨?_, ?_⟩
    · intro p hp hcon
      exact hpairs p hp ⟨Nat.le_of_lt hcon.1, Nat.le_of_lt hcon.2⟩
    · intro c hc
      have := hcom c hc
      omega

/-- Counterexample to claim C2 as stated: on the line `x = "un; term` the
quote at index 4 opens a span that never closes (a head entry with no
matching tail), the semicolon at index 7 lies past that unmatched head,
and the stray-semicolon check DOES report the line. -/
theorem c2_counterexample :
    (find_boundaries ("x = \"un; term".toList)).head = [4] ∧
      (find_boundaries ("x = \"un; term".toList)).tail = [] ∧
      (find_boundaries ("x = \"un; term".toList)).comment = none ∧
      pyGetD ("x = \"un; term".toList) 7 = ';' ∧
      s003_line ("x = \"un; term".toList) = true := by
  decide

/-- Claim C2 (amended): on a line with an unmatched head, no comment
offset exists, and a semicolon lying past every recorded boundary index IS
reported by the stray-semicolon check (it is outside every completed span
and there is no comment to excuse it). -/
theorem c2_amended (line : List Char) (j : Nat)
    (hunm : (find_boundaries line).head.length
        = (find_boundaries line).tail.length + 1)
    (hj : j < line.length) (hsemi : pyGetD line j = ';')
    (hpast : ∀ x ∈ (find_boundaries line).head ++ (find_boundaries line).tail,
        x < j) :
    (find_boundaries line).comment = none ∧ s003_line line = true := by
  have hcom : (find_boundaries line).comment = none := by
    rcases hcm : (find_boundaries line).comment with _ | c
    · rfl
    · have := find_boundaries_balance hcm
      omega
  refine ⟨hcom, ?_⟩
  simp only [s003_line]
  rw [s003_loop_any]
  refine ⟨j, mem_semiIdxs.mpr ⟨hj, hsemi⟩, ?_⟩
  apply (s003_found_false_iff line j).mpr
  refine ⟨?_, ?_⟩
  · intro p hp hcon
    have h2 : p.2 ∈ (find_boundaries line).tail := (List.of_mem_zip hp).2
    have := hpast p.2 (List.mem_append_right _ h2)
    omega
  · intro c hcm
    rw [hcom] at hcm
    cases hcm

/-- Witness for the amended C2 on the line `x = "un; term`. -/
theorem c2_amended_witness :
    ((find_boundaries ("x = \"un; hi".toList)).head.length
        = (find_boundaries ("x = \"un; hi".toList)).tail.length + 1) ∧
      s003_line ("x = \"un; hi".toList) = true :=
  ⟨by decide,
    (c2_amended ("x = \"un; hi".toList) 7 (by decide) (by decide) (by decide)
        (by decide)).2⟩

/-- Counterexample to claim C4 as stated: in the line `"a\x5c\x5c"` the
quote at index 4 is immediately preceded by a backslash that is itself
escaped (two consecutive backslashes), so by the claim it should close
the span; the scanner leaves the span open and records no tail. -/
theorem c4_counterexample :
    pyGetD ("\"a\\\\\"".toList) 4 = '"' ∧
      pyGetD ("\"a\\\\\"".toList) 3 = '\\' ∧
      pyGetD ("\"a\\\\\"".toList) 2 = '\\' ∧
      find_boundaries ("\"a\\\\\"".toList) = ⟨[0], [], none⟩ := by
  decide

/-- Claim C4 (amended): while inside a string, an occurrence of the
active quote character closes the span if and only if the immediately
preceding character is not a backslash, whether or not that backslash is
itself escaped; otherwise the scan continues with the string still open. -/
theorem c4_amended (line : List Char) (i : Nat) (rest : List Nat) (q : Char)
    (hq : pyGetD line i = q) :
    fbLoop line (i :: rest) true q =
      (if pyPrev line i = '\\' then fbLoop line rest true q
       else
        ⟨(fbLoop line rest false q).head,
          i :: (fbLoop line rest false q).tail,
          (fbLoop line rest false q).comment⟩) := by
  by_cases hp : pyPrev line i = '\\'
  · simp [fbLoop, hq, hp]
  · simp [fbLoop, hq, hp]

/-- Witness for the amended C4: the closing quote of `"a b"` follows a
non-backslash character and closes the span. -/
theorem c4_amended_witness :
    pyGetD ("\"a b\"".toList) 4 = '"' ∧
      fbLoop ("\"a b\"".toList) (4 :: []) true '"' =
        (if pyPrev ("\"a b\"".toList) 4 = '\\' then
          fbLoop ("\"a b\"".toList) [] true '"'
         else
          ⟨(fbLoop ("\"a b\"".toList) [] false '"').head,
            4 :: (fbLoop ("\"a b\"".toList) [] false '"').tail,
            (fbLoop ("\"a b\"".toList) [] false '"').comment⟩) :=
  ⟨by decide, c4_amended ("\"a b\"".toList) 4 [] '"' (by decide)⟩

/-- A slice of width two in terms of single characters. -/
theorem pySlice_two {line : List Char} {a : Nat} (h : a + 2 ≤ line.length) :
    pySlice line a (a + 2) = [pyGetD line a, pyGetD line (a + 1)] := by
  have h1 : a < line.length := by omega
  have h2 : a + 1 < line.length := by omega
  rw [pySlice, List.drop_take]
  have e : a + 2 - a = 2 := by omega
  rw [e, List.drop_eq_getElem_cons h1, List.drop_eq_getElem_cons h2]
  simp only [pyGetD, List.getD_eq_getElem?_getD, List.getElem?_eq_getElem h1,
    List.getElem?_eq_getElem h2, Option.getD_some]
  rfl

/-- Counterexample to claim C6 as stated: on the line `ab#x` the comment
offset is 2, not column 0, and the two preceding characters are not two
spaces, yet the comment-spacing check reports nothing (offset exactly 2 is
unreachable in the code's condition). -/
theorem c6_counterexample :
    (find_boundaries ("ab#x".toList)).comment = some 2 ∧
      pySlice ("ab#x".toList) 0 2 ≠ [' ', ' '] ∧
      s004_line ("ab#x".toList) = false := by
  decide

/-- Claim C6 (amended): the comment-spacing check reports a line exactly
when its comment offset is 1, or is greater than 2 with the two preceding
characters not both spaces; offsets 0 and 2 never report, whatever
precedes them. -/
theorem c6_amended (line : List Char) :
    s004_line line = true ↔
      ∃ pos, (find_boundaries line).comment = some pos ∧
        (pos = 1 ∨
          (2 < pos ∧
            ¬(pyGetD line (pos - 2) = ' ' ∧ pyGetD line (pos - 1) = ' '))) := by
  rcases hc : (find_boundaries line).comment with _ | pos
  · simp [s004_line, hc]
  · have hlen : pos < line.length :=
      (mem_quoteIdxs.mp ((find_boundaries_mem line).2.2 pos hc)).1
    have hchars : 2 < pos →
        pySlice line (pos - 2) pos = [pyGetD line (pos - 2), pyGetD line (pos - 1)] := by
      intro hgt
      have he : pos - 2 + 2 = pos := by omega
      have hidx : pos - 2 + 1 = pos - 1 := by omega
      have hs := @pySlice_two line (pos - 2) (by omega)
      rw [he, hidx] at hs
      exact hs
    simp only [s004_line, hc, Option.some.injEq, Bool.and_eq_true, Bool.or_eq_true,
      decide_eq_true_eq, exists_eq_left']
    constructor
    · rintro ⟨hne, h1 | ⟨hgt, hsl⟩⟩
      · exact Or.inl h1
      · refine Or.inr ⟨hgt, ?_⟩
        rintro ⟨ha, hb⟩
        exact hsl (by rw [hchars hgt, ha, hb])
    · rintro (h1 | ⟨hgt, hch⟩)
      · exact ⟨by omega, Or.inl h1⟩
      · refine ⟨by omega, Or.inr ⟨hgt, fun hsl => hch ?_⟩⟩
        rw [hchars hgt] at hsl
        simp only [List.cons.injEq, and_true] at hsl
        exact hsl

/-- Indexing through `List.drop`. -/
theorem pyGetD_drop (l : List Char) (n m : Nat) :
    pyGetD (l.drop n) m = pyGetD l (n + m) := by
  simp [pyGetD, List.getD_eq_getElem?_getD, List.getElem?_drop]

/-- Indexing through cons. -/
theorem pyGetD_cons_succ (c : Char) (l : List Char) (m : Nat) :
    pyGetD (c :: l) (m + 1) = pyGetD l m := by
  simp [pyGetD]

/-- The head of a dropped suffix. -/
theorem pyGetD_of_drop_cons {l : List Char} {n : Nat} {c : Char}
    {tl : List Char} (h : l.drop n = c :: tl) : pyGetD l n = c := by
  have h0 := pyGetD_drop l n 0
  rw [h] at h0
  simpa using h0.symm

/-- The last character of an all-whitespace prefix is whitespace. -/
theorem take_space_last {b : List Char} : ∀ {k : Nat}, 1 ≤ k → k ≤ b.length →
    (b.take k).all isPySpace = true → isPySpace (pyGetD b (k - 1)) = true := by
  induction b with
  | nil => intro k hk hkb _; simp at hkb; omega
  | cons c cs ih =>
    intro k hk hkb hall
    rcases k with _ | q
    · omega
    · rw [List.take_succ_cons, List.all_cons, Bool.and_eq_true] at hall
      rcases q with _ | q'
      · simpa [pyGetD] using hall.1
      · have := @ih (q' + 1) (by omega) (by simp at hkb; omega) hall.2
        have he : q' + 1 + 1 - 1 = q' + 1 := by omega
        rw [he, pyGetD_cons_succ]
        simpa using this

/-- A prefix of characters that are individually not newlines passes the
newline-free scan. -/
theorem take_all_not_nl {l : List Char} : ∀ p : Nat,
    (∀ m, m < p → pyGetD l m ≠ '\n') →
    (l.take p).all (fun d => d != '\n') = true := by
  induction l with
  | nil => intro p _; simp
  | cons c cs ih =>
    intro p h
    rcases p with _ | q
    · simp
    · rw [List.take_succ_cons, List.all_cons, Bool.and_eq_true]
      refine ⟨?_, ?_⟩
      · have := h 0 (by omega)
        simpa [pyGetD] using this
      · exact ih q fun m hm => by
          have := h (m + 1) (by omega)
          rwa [pyGetD_cons_succ] at this

/-- The `check_s005` pattern matches the comment text exactly when the
claim-side TODO condition holds, for a text with no interior newline. -/
theorem todo_match_iff (rest : List Char)
    (hnl : ∀ m, m + 1 < ('#' :: rest).length → pyGetD ('#' :: rest) m ≠ '\n') :
    todo_match ('#' :: rest) = true ↔ s005_spec ('#' :: rest) := by
  constructor
  · intro h
    simp only [todo_match, Bool.and_eq_true] at h
    obtain ⟨-, hany⟩ := h
    obtain ⟨p, hp, hpm⟩ := List.any_eq_true.mp hany
    rw [Bool.and_eq_true] at hpm
    obtain ⟨-, hmid⟩ := hpm
    simp only [todoMid] at hmid
    obtain ⟨k, hk, hkm⟩ := List.any_eq_true.mp hmid
    rw [List.mem_range] at hk
    rw [Bool.and_eq_true, Bool.and_eq_true, Bool.and_eq_true] at hkm
    obtain ⟨⟨⟨hk1, hsp⟩, hth⟩, hafter⟩ := hkm
    rw [decide_eq_true_eq] at hk1
    have hlen4 : ((rest.drop p).drop k).drop 4 = rest.drop (p + k + 4) := by
      rw [List.drop_drop, List.drop_drop]
      congr 1
    rcases hxs : rest.drop (p + k + 4) with _ | ⟨c4, tl4⟩
    · rw [hlen4, hxs] at hafter
      cases hafter
    · rw [hlen4, hxs] at hafter
      have hrl : p + k + 4 < rest.length := by
        have hcl := congrArg List.length hxs
        simp only [List.length_drop, List.length_cons] at hcl
        omega
      refine ⟨p + k + 1, by omega, ?_, ?_, ?_, ?_⟩
      · simp only [List.length_cons]
        omega
      · have hsp' := take_space_last hk1
          (by simp only [List.length_drop]; omega) hsp
        have he1 : p + k + 1 - 1 = (p + (k - 1)) + 1 := by omega
        rw [he1, pyGetD_cons_succ]
        rw [pyGetD_drop] at hsp'
        exact hsp'
      · have he2 : p + k + 1 = (p + k) + 1 := rfl
        rw [he2, List.drop_succ_cons, ← List.drop_drop]
        exact hth
      · have he3 : p + k + 1 + 4 = (p + k + 4) + 1 := by omega
        rw [he3, pyGetD_cons_succ, pyGetD_of_drop_cons hxs]
        exact hafter
  · rintro ⟨i, hi0, hilen, hbefore, hth, hafter⟩
    simp only [List.length_cons] at hilen
    have hi2 : 2 ≤ i := by
      rcases Nat.lt_or_ge i 2 with hlt | hge
      · exfalso
        have hi1 : i = 1 := by omega
        subst hi1
        have : pyGetD ('#' :: rest) 0 = '#' := rfl
        rw [this] at hbefore
        exact absurd hbefore (by decide)
      · exact hge
    simp only [todo_match, Bool.and_eq_true]
    refine ⟨rfl, ?_⟩
    apply List.any_eq_true.mpr
    refine ⟨i - 2, List.mem_range.mpr (by omega), ?_⟩
    rw [Bool.and_eq_true]
    constructor
    · apply take_all_not_nl
      intro m hm
      have := hnl (m + 1) (by simp only [List.length_cons]; omega)
      rwa [pyGetD_cons_succ] at this
    · simp only [todoMid]
      apply List.any_eq_true.mpr
      refine ⟨1, List.mem_range.mpr (by rw [List.length_drop]; omega), ?_⟩
      rw [Bool.and_eq_true, Bool.and_eq_true, Bool.and_eq_true]
      rcases hbd : rest.drop (i - 2) with _ | ⟨b0, btl⟩
      · exfalso
        have hcl := congrArg List.length hbd
        simp only [List.length_drop, List.length_nil] at hcl
        omega
      · have hb0 : b0 = pyGetD rest (i - 2) := (pyGetD_of_drop_cons hbd).symm
        have hbsp : isPySpace b0 = true := by
          rw [hb0]
          have he : i - 1 = (i - 2) + 1 := by omega
          rw [he, pyGetD_cons_succ] at hbefore
          exact hbefore
        have hbtl : rest.drop (i - 1) = btl := by
          have hcg := congrArg (List.drop 1) hbd
          rw [List.drop_drop] at hcg
          rw [show List.drop 1 (b0 :: btl) = btl from rfl] at hcg
          have he : i - 2 + 1 = i - 1 := by omega
          rwa [he] at hcg
        refine ⟨⟨⟨by decide, ?_⟩, ?_⟩, ?_⟩
        · rw [show List.take 1 (b0 :: btl) = [b0] from rfl]
          simp [hbsp]
        · rw [show List.drop 1 (b0 :: btl) = btl from rfl, ← hbtl]
          have he2 : i = (i - 1) + 1 := by omega
          rw [he2, List.drop_succ_cons] at hth
          exact hth
        · rw [show List.drop 1 (b0 :: btl) = btl from rfl, ← hbtl,
            List.drop_drop]
          have he : i - 1 + 4 = i + 3 := by omega
          rw [he]
          rcases hrd : rest.drop (i + 3) with _ | ⟨c5, tl5⟩
          · exfalso
            have hcl := congrArg List.length hrd
            simp only [List.length_drop, List.length_nil] at hcl
            omega
          · have hc5 : c5 = pyGetD rest (i + 3) := (pyGetD_of_drop_cons hrd).symm
            have hsp5 : isPySpace c5 = true := by
              rw [hc5]
              have he2 : i + 4 = (i + 3) + 1 := by omega
              rw [he2, pyGetD_cons_succ] at hafter
              exact hafter
            simpa using hsp5

/-- Claim C9: for every line with no interior newline, the TODO check
fires exactly when the text starting at the comment offset contains,
case-insensitively, a TODO token with at least one whitespace character
immediately before and immediately after it; in particular a comment whose
text ends immediately after TODO does not match. -/
theorem c9_todo_iff (line : List Char)
    (hnl : ∀ m ∈ List.range line.length,
        m + 1 < line.length → pyGetD line m ≠ '\n') :
    s005_line line = true ↔
      ∃ pos, (find_boundaries line).comment = some pos ∧
        s005_spec (line.drop pos) := by
  rcases hc : (find_boundaries line).comment with _ | pos
  · simp [s005_line, hc]
  · have hlen : pos < line.length :=
      (mem_quoteIdxs.mp ((find_boundaries_mem line).2.2 pos hc)).1
    have hhash : pyGetD line pos = '#' := find_boundaries_hash hc
    simp only [s005_line, hc, Option.some.injEq, exists_eq_left']
    rcases hd : line.drop pos with _ | ⟨c0, rest⟩
    · exfalso
      have hcl := congrArg List.length hd
      simp only [List.length_drop, List.length_nil] at hcl
      omega
    · have hc0 : c0 = '#' := by
        have h0 := pyGetD_of_drop_cons hd
        rw [hhash] at h0
        exact h0.symm
      subst hc0
      apply todo_match_iff
      intro m hm
      have hdl : ('#' :: rest) = line.drop pos := hd.symm
      rw [hdl] at hm
      simp only [List.length_drop] at hm
      rw [hdl, pyGetD_drop]
      exact hnl (pos + m) (List.mem_range.mpr (by omega)) (by omega)

/-- Witness for C9 on the line `x = 1  # TODO fix` with newline. -/
theorem c9_todo_iff_witness :
    (∀ m ∈ List.range ("x = 1  # TODO fix\n".toList).length,
        m + 1 < ("x = 1  # TODO fix\n".toList).length →
          pyGetD ("x = 1  # TODO fix\n".toList) m ≠ '\n') ∧
      (s005_line ("x = 1  # TODO fix\n".toList) = true ↔
        ∃ pos,
          (find_boundaries ("x = 1  # TODO fix\n".toList)).comment = some pos ∧
            s005_spec (("x = 1  # TODO fix\n".toList).drop pos)) :=
  ⟨by decide, c9_todo_iff ("x = 1  # TODO fix\n".toList) (by decide)⟩

/-- `readlines` on a text whose first line is complete: the first stored
line is the visible text with its newline, exactly as read. -/
theorem readlines_split (visible : List Char) (rest : List Char)
    (hnot : '\n' ∉ visible) :
    readlines (visible ++ '\n' :: rest)
      = (visible ++ ['\n']) :: readlines rest := by
  induction visible with
  | nil => simp [readlines]
  | cons c cs ih =>
    have hc : c ≠ '\n' := fun h => hnot (h ▸ List.mem_cons_self c cs)
    have hcs : '\n' ∉ cs := fun h => hnot (List.mem_cons_of_mem c h)
    simp only [List.cons_append, readlines, if_neg hc, List.append_eq]
    rw [ih hcs]

/-- `readlines` on a final line with no terminating newline: stored as
is. -/
theorem readlines_single (visible : List Char)
    (hnot : '\n' ∉ visible) (hne : visible ≠ []) :
    readlines visible = [visible] := by
  induction visible with
  | nil => cases hne rfl
  | cons c cs ih =>
    have hc : c ≠ '\n' := fun h => hnot (h ▸ List.mem_cons_self c cs)
    have hcs : '\n' ∉ cs := fun h => hnot (List.mem_cons_of_mem c h)
    rcases hcse : cs with _ | ⟨d, ds⟩
    · simp [readlines, if_neg hc]
    · rw [← hcse]
      have hcsne : cs ≠ [] := by rw [hcse]; exact List.cons_ne_nil d ds
      simp only [readlines, if_neg hc]
      rw [ih hcs hcsne]

/-- Claim C10: lines are stored exactly as read, trailing newline
included, and the length check compares the stored length with 79: a
non-final line of 79 visible characters is stored with length 80 and
reported, while the same text as the file's last line without a newline is
stored with length 79 and not reported. -/
theorem c10_stored_length (visible rest : List Char)
    (hnot : '\n' ∉ visible) (hlen : visible.length = 79) :
    readlines (visible ++ '\n' :: rest)
        = (visible ++ ['\n']) :: readlines rest ∧
      s001_line (visible ++ ['\n']) = true ∧
      readlines visible = [visible] ∧
      s001_line visible = false := by
  refine ⟨readlines_split visible rest hnot, ?_, ?_, ?_⟩
  · simp [s001_line, max_len, hlen]
  · apply readlines_single visible hnot
    intro h
    rw [h] at hlen
    cases hlen
  · simp [s001_line, max_len, hlen]

/-- Witness for C10 with a 79-character line of letter a. -/
theorem c10_stored_length_witness :
    ('\n' ∉ List.replicate 79 'a' ∧ (List.replicate 79 'a').length = 79) ∧
      (readlines (List.replicate 79 'a' ++ '\n' :: [])
          = (List.replicate 79 'a' ++ ['\n']) :: readlines [] ∧
        s001_line (List.replicate 79 'a' ++ ['\n']) = true ∧
        readlines (List.replicate 79 'a') = [List.replicate 79 'a'] ∧
        s001_line (List.replicate 79 'a') = false) :=
  ⟨⟨by decide, by decide⟩,
    c10_stored_length (List.replicate 79 'a') [] (by decide) (by decide)⟩

/-- An unparseable file anywhere in the list aborts the per-file loop with
an uncaught error, whatever the registry state. -/
theorem analyzeLoop_error :
    ∀ (files : List PyFile) (reg : Registry),
      (∃ f ∈ files, f.tree = none) →
      ∃ e, analyzeLoop reg files = Except.error e := by
  intro files
  induction files with
  | nil =>
    rintro reg ⟨f, hf, -⟩
    cases hf
  | cons g rest ih =>
    rintro reg ⟨f, hf, hft⟩
    rcases List.mem_cons.mp hf with rfl | hmem
    · refine ⟨("SyntaxError: invalid syntax in " ++ f.name, runLexical reg f), ?_⟩
      simp [analyzeLoop, check_ast, hft]
    · rcases hg : g.tree with _ | nodes
      · refine ⟨("SyntaxError: invalid syntax in " ++ g.name, runLexical reg g), ?_⟩
        simp [analyzeLoop, check_ast, hg]
      · simp only [analyzeLoop, check_ast, hg]
        exact ih _ ⟨f, hmem, hft⟩

/-- Counterexample to claim C1 as stated: with an unparseable first file
`a.py` and a healthy second file `b.py` whose only line is 85 characters
long, the run aborts inside `make_analyze`: `a.py`'s lexical finding is
stored but never shown, no skip diagnostic exists, `b.py`'s slice stays
empty (its checks never ran although its line violates the length rule),
and the run reports nothing at all. -/
theorem c1_counterexample :
    run [⟨"a.py", ["x = 1;\n".toList], none⟩,
        ⟨"b.py", [List.replicate 85 'b'], some []⟩] = none ∧
      make_analyze [⟨"a.py", ["x = 1;\n".toList], none⟩,
          ⟨"b.py", [List.replicate 85 'b'], some []⟩]
        = Except.error ("SyntaxError: invalid syntax in a.py",
            [("a.py", [(1, [Issue.code "S003"])]), ("b.py", [(1, [])])]) ∧
      s001_line (List.replicate 85 'b') = true :=
  ⟨rfl, rfl, by decide⟩

/-- Claim C1 (amended): a parse failure for any file is an uncaught
exception: `make_analyze` aborts with an error, so no record sequence is
produced and nothing at all is reported, for this file or any other. -/
theorem c1_amended (files : List PyFile)
    (h : ∃ f ∈ files, f.tree = none) :
    (∃ e, make_analyze files = Except.error e) ∧ run files = none := by
  obtain ⟨e, he⟩ := analyzeLoop_error files (initRegistry files) h
  have hm : make_analyze files = Except.error e := he
  exact ⟨⟨e, hm⟩, by simp [run, hm]⟩

/-- Witness for the amended C1 on a one-file list whose file fails to
parse. -/
theorem c1_amended_witness :
    (∃ f ∈ [(⟨"a.py", ["x = 1;\n".toList], none⟩ : PyFile)], f.tree = none) ∧
      ((∃ e, make_analyze [(⟨"a.py", ["x = 1;\n".toList], none⟩ : PyFile)]
          = Except.error e) ∧
        run [(⟨"a.py", ["x = 1;\n".toList], none⟩ : PyFile)] = none) :=
  ⟨⟨⟨"a.py", ["x = 1;\n".toList], none⟩, by decide, rfl⟩,
    c1_amended [⟨"a.py", ["x = 1;\n".toList], none⟩]
      ⟨⟨"a.py", ["x = 1;\n".toList], none⟩, by decide, rfl⟩⟩

/-- Lookup after insertion under a different file key. -/
theorem findFile_addIssue_ne {f f' : String} (hne : f' ≠ f) (l : Nat)
    (iss : Issue) : ∀ reg : Registry,
    findFile f' (addIssue f l iss reg) = findFile f' reg := by
  intro reg
  induction reg with
  | nil => rfl
  | cons e rest ih =>
    obtain ⟨g, ls⟩ := e
    simp only [addIssue]
    by_cases hg : g = f
    · rw [if_pos hg]
      simp only [findFile]
      have hgf : ¬ g = f' := fun h => hne (h.symm.trans hg)
      rw [if_neg hgf, if_neg hgf]
    · rw [if_neg hg]
      simp only [findFile]
      by_cases hg' : g = f'
      · rw [if_pos hg', if_pos hg']
      · rw [if_neg hg', if_neg hg']
        exact ih

/-- Lookup after insertion under the same file key. -/
theorem findFile_addIssue_eq (f : String) (l : Nat) (iss : Issue) :
    ∀ reg : Registry,
    findFile f (addIssue f l iss reg) = (findFile f reg).map (addLine l iss) := by
  intro reg
  induction reg with
  | nil => rfl
  | cons e rest ih =>
    obtain ⟨g, ls⟩ := e
    simp only [addIssue]
    by_cases hg : g = f
    · rw [if_pos hg]
      simp only [findFile, if_pos hg]
      rfl
    · rw [if_neg hg]
      simp only [findFile, if_neg hg]
      exact ih

/-- Lookup after set insertion under a different line key. -/
theorem findLine_addLine_ne {l l' : Nat} (hne : l' ≠ l) (iss : Issue) :
    ∀ ls : FileIssues, findLine l' (addLine l iss ls) = findLine l' ls := by
  intro ls
  induction ls with
  | nil => rfl
  | cons e rest ih =>
    obtain ⟨m, s⟩ := e
    simp only [addLine]
    by_cases hm : m = l
    · rw [if_pos hm]
      simp only [findLine]
      have hml : ¬ m = l' := fun h => hne (h.symm.trans hm)
      rw [if_neg hml, if_neg hml]
    · rw [if_neg hm]
      simp only [findLine]
      by_cases hm' : m = l'
      · rw [if_pos hm', if_pos hm']
      · rw [if_neg hm', if_neg hm']
        exact ih

/-- Lookup after set insertion under the same line key. -/
theorem findLine_addLine_eq (l : Nat) (iss : Issue) :
    ∀ ls : FileIssues,
    findLine l (addLine l iss ls)
      = (findLine l ls).map fun s => if s.contains iss then s else s ++ [iss] := by
  intro ls
  induction ls with
  | nil => rfl
  | cons e rest ih =>
    obtain ⟨m, s⟩ := e
    simp only [addLine]
    by_cases hm : m = l
    · rw [if_pos hm]
      simp only [findLine, if_pos hm]
      rfl
    · rw [if_neg hm]
      simp only [findLine, if_neg hm]
      exact ih

/-- Insertion never changes which file and line keys exist. -/
theorem hasLine_addIssue (f : String) (l : Nat) (iss : Issue) (reg : Registry)
    (f' : String) (l' : Nat) :
    hasLine (addIssue f l iss reg) f' l' = hasLine reg f' l' := by
  by_cases hf : f' = f
  · subst hf
    simp only [hasLine, findFile_addIssue_eq]
    cases hff : findFile f' reg with
    | none => rfl
    | some ls =>
      simp only [Option.map_some']
      by_cases hl : l' = l
      · subst hl
        rw [findLine_addLine_eq]
        cases hfl : findLine l' ls <;> rfl
      · rw [findLine_addLine_ne hl]
  · simp only [hasLine, findFile_addIssue_ne hf]

/-- Membership in a line set after one insertion. -/
theorem mem_lineIssues_addIssue {f : String} {l : Nat} {iss : Issue}
    {reg : Registry} {f' : String} {l' : Nat} {iss' : Issue} :
    iss' ∈ lineIssues (addIssue f l iss reg) f' l' ↔
      iss' ∈ lineIssues reg f' l' ∨
        (f' = f ∧ l' = l ∧ iss' = iss ∧ hasLine reg f l = true) := by
  by_cases hf : f' = f
  · subst hf
    by_cases hl : l' = l
    · subst hl
      simp only [lineIssues, hasLine, findFile_addIssue_eq]
      cases hff : findFile f' reg with
      | none => simp
      | some ls =>
        simp only [Option.map_some']
        rw [findLine_addLine_eq]
        cases hfl : findLine l' ls with
        | none => simp
        | some s =>
          simp only [Option.map_some', Option.getD_some, Option.isSome_some]
          by_cases hc : s.contains iss = true
          · rw [if_pos hc]
            have hmem : iss ∈ s := List.elem_iff.mp hc
            constructor
            · intro h
              exact Or.inl h
            · rintro (h | ⟨-, -, rfl, -⟩)
              · exact h
              · exact hmem
          · rw [if_neg hc]
            rw [List.mem_append, List.mem_singleton]
            constructor
            · rintro (h | h)
              · exact Or.inl h
              · exact Or.inr ⟨trivial, trivial, h, trivial⟩
            · rintro (h | ⟨-, -, rfl, -⟩)
              · exact Or.inl h
              · exact Or.inr rfl
    · simp only [lineIssues, findFile_addIssue_eq]
      cases hff : findFile f' reg with
      | none => simp [hl]
      | some ls =>
        simp only [Option.map_some']
        rw [findLine_addLine_ne hl]
        simp [hl]
  · simp only [lineIssues, findFile_addIssue_ne hf]
    simp [hf]

/-- Insertion preserves duplicate-freeness of every line set. -/
theorem nodup_lineIssues_addIssue {f : String} {l : Nat} {iss : Issue}
    {reg : Registry} {f' : String} {l' : Nat}
    (h : (lineIssues reg f' l').Nodup) :
    (lineIssues (addIssue f l iss reg) f' l').Nodup := by
  by_cases hf : f' = f
  · subst hf
    by_cases hl : l' = l
    · subst hl
      simp only [lineIssues, findFile_addIssue_eq] at h ⊢
      cases hff : findFile f' reg with
      | none => simp
      | some ls =>
        rw [hff] at h
        have h2 : ((findLine l' ls).getD ([] : List Issue)).Nodup := h
        simp only [Option.map_some']
        rw [findLine_addLine_eq]
        cases hfl : findLine l' ls with
        | none => simp
        | some s =>
          rw [hfl] at h2
          simp only [Option.getD_some] at h2
          simp only [Option.map_some', Option.getD_some]
          by_cases hc : s.contains iss = true
          · rw [if_pos hc]
            exact h2
          · rw [if_neg hc]
            have hnm : iss ∉ s := fun hmem => hc (List.elem_iff.mpr hmem)
            rw [List.nodup_append]
            exact ⟨h2, List.nodup_singleton iss,
              fun a ha hb => hnm ((List.mem_singleton.mp hb) ▸ ha)⟩
    · simp only [lineIssues, findFile_addIssue_eq] at h ⊢
      cases hff : findFile f' reg with
      | none => simp
      | some ls =>
        rw [hff] at h
        have h2 : ((findLine l' ls).getD ([] : List Issue)).Nodup := h
        simp only [Option.map_some']
        rw [findLine_addLine_ne hl]
        exact h2
  · simp only [lineIssues, findFile_addIssue_ne hf] at h ⊢
    exact h

/-- Line lookup in the freshly created per-file dictionary. -/
theorem findLine_range' : ∀ (n s m : Nat),
    findLine m ((List.range' s n).map fun i => (i, ([] : List Issue)))
      = if s ≤ m ∧ m < s + n then some [] else none := by
  intro n
  induction n with
  | zero =>
    intro s m
    rw [if_neg (by omega)]
    rfl
  | succ k ih =>
    intro s m
    rw [List.range'_succ]
    simp only [List.map_cons, findLine]
    by_cases he : s = m
    · rw [if_pos he, if_pos (by omega)]
    · rw [if_neg he, ih (s + 1) m]
      have hiff : (s + 1 ≤ m ∧ m < s + 1 + k) ↔ (s ≤ m ∧ m < s + (k + 1)) := by
        omega
      simp only [hiff]

/-- Keys of the one-file registry built by `get_code`. -/
theorem hasLine_init (fname : String) (n m : Nat) :
    hasLine [(fname, initLines n)] fname m = true ↔ 1 ≤ m ∧ m ≤ n := by
  have hff : findFile fname [(fname, initLines n)] = some (initLines n) := by
    simp [findFile]
  simp only [hasLine]
  rw [hff]
  show (findLine m (initLines n)).isSome = true ↔ 1 ≤ m ∧ m ≤ n
  simp only [initLines]
  rw [findLine_range']
  by_cases h : 1 ≤ m ∧ m < 1 + n
  · rw [if_pos h]
    constructor
    · intro _
      exact ⟨h.1, by omega⟩
    · intro _
      trivial
  · rw [if_neg h]
    constructor
    · intro hc
      simp at hc
    · intro hc
      exact absurd ⟨hc.1, by omega⟩ h

/-- All line sets of the one-file registry start empty. -/
theorem lineIssues_init (fname : String) (n m : Nat) :
    lineIssues [(fname, initLines n)] fname m = [] := by
  have hff : findFile fname [(fname, initLines n)] = some (initLines n) := by
    simp [findFile]
  simp only [lineIssues]
  rw [hff]
  show (findLine m (initLines n)).getD [] = []
  simp only [initLines]
  rw [findLine_range']
  by_cases h : 1 ≤ m ∧ m < 1 + n
  · rw [if_pos h]
    rfl
  · rw [if_neg h]
    rfl

/-- Membership after the defaults loop of `check_s012`: a bare `S012` is
present at a line exactly when it was there before or some mutable default
sits on that line (lines must exist as keys). -/
theorem s012_fold_mem (f : String) :
    ∀ (ds : List (DefaultKind × Nat)) (reg : Registry)
      (hHas : ∀ d ∈ ds, isMutableKind d.1 = true → hasLine reg f d.2 = true)
      (f' : String) (l' : Nat) (iss' : Issue),
      (iss' ∈ lineIssues
          (ds.foldl (fun r d =>
            if isMutableKind d.1 then addIssue f d.2 (Issue.code "S012") r else r)
            reg) f' l'
        ↔ iss' ∈ lineIssues reg f' l'
            ∨ (f' = f ∧ iss' = Issue.code "S012" ∧
                ∃ d ∈ ds, isMutableKind d.1 = true ∧ d.2 = l')) := by
  intro ds
  induction ds with
  | nil =>
    intro reg hHas f' l' iss'
    simp
  | cons d ds ih =>
    intro reg hHas f' l' iss'
    simp only [List.foldl_cons]
    by_cases hm : isMutableKind d.1 = true
    · rw [if_pos hm]
      rw [ih (addIssue f d.2 (Issue.code "S012") reg)
          (fun d' hd' hm' => by
            rw [hasLine_addIssue]
            exact hHas d' (List.mem_cons_of_mem _ hd') hm')]
      rw [mem_lineIssues_addIssue]
      have hHd : hasLine reg f d.2 = true := hHas d (List.mem_cons_self _ _) hm
      constructor
      · rintro ((h | ⟨hf, hl, hi, -⟩) | ⟨hf, hi, d', hd', hm', hl'⟩)
        · exact Or.inl h
        · exact Or.inr ⟨hf, hi, d, List.mem_cons_self _ _, hm, hl.symm⟩
        · exact Or.inr ⟨hf, hi, d', List.mem_cons_of_mem _ hd', hm', hl'⟩
      · rintro (h | ⟨hf, hi, d', hd', hm', hl'⟩)
        · exact Or.inl (Or.inl h)
        · rcases List.mem_cons.mp hd' with rfl | hd''
          · exact Or.inl (Or.inr ⟨hf, hl'.symm, hi, hHd⟩)
          · exact Or.inr ⟨hf, hi, d', hd'', hm', hl'⟩
    · rw [if_neg hm]
      rw [ih reg (fun d' hd' hm' => hHas d' (List.mem_cons_of_mem _ hd') hm')]
      constructor
      · rintro (h | ⟨hf, hi, d', hd', hm', hl'⟩)
        · exact Or.inl h
        · exact Or.inr ⟨hf, hi, d', List.mem_cons_of_mem _ hd', hm', hl'⟩
      · rintro (h | ⟨hf, hi, d', hd', hm', hl'⟩)
        · exact Or.inl h
        · rcases List.mem_cons.mp hd' with rfl | hd''
          · exact absurd hm' hm
          · exact Or.inr ⟨hf, hi, d', hd'', hm', hl'⟩

/-- The defaults loop of `check_s012` keeps every line set free of
duplicates. -/
theorem s012_fold_nodup (f : String) :
    ∀ (ds : List (DefaultKind × Nat)) (reg : Registry),
      (∀ (f' : String) (l' : Nat), (lineIssues reg f' l').Nodup) →
      ∀ (f' : String) (l' : Nat),
        (lineIssues
          (ds.foldl (fun r d =>
            if isMutableKind d.1 then addIssue f d.2 (Issue.code "S012") r else r)
            reg) f' l').Nodup := by
  intro ds
  induction ds with
  | nil =>
    intro reg h f' l'
    simpa using h f' l'
  | cons d ds ih =>
    intro reg h f' l'
    simp only [List.foldl_cons]
    by_cases hm : isMutableKind d.1 = true
    · rw [if_pos hm]
      exact ih _ (fun f'' l'' => nodup_lineIssues_addIssue (h f'' l'')) f' l'
    · rw [if_neg hm]
      exact ih _ h f' l'

/-- Counterexample to claim C3 as stated: a definition with a list
default and a mapping default both on line 1 stores a single bare `S012`
finding for that line, not two findings. -/
theorem c3_counterexample :
    check_s012 "a.py"
        (Node.functionDef "f" 1 []
          [(DefaultKind.dList, 1), (DefaultKind.dDict, 1)])
        [("a.py", initLines 1)]
      = [("a.py", [(1, [Issue.code "S012"])])] ∧
      lineIssues
          (check_s012 "a.py"
            (Node.functionDef "f" 1 []
              [(DefaultKind.dList, 1), (DefaultKind.dDict, 1)])
            [("a.py", initLines 1)]) "a.py" 1
        = [Issue.code "S012"] := by
  constructor
  · rfl
  · rfl

/-- Claim C3 (amended): the mutable-default check records the bare `S012`
finding at a line exactly when some default on that line is a list,
mapping or set literal, but the finding carries no per-default identity
and line sets deduplicate, so two offending defaults on the same line
yield a single stored finding (the line set stays duplicate-free). -/
theorem c3_amended (fname fn : String) (fl n : Nat) (args : List ArgInfo)
    (ds : List (DefaultKind × Nat)) (l : Nat)
    (hl : ∀ d ∈ ds, 1 ≤ d.2 ∧ d.2 ≤ n) :
    (Issue.code "S012" ∈
        lineIssues
          (check_s012 fname (Node.functionDef fn fl args ds)
            [(fname, initLines n)]) fname l
      ↔ ∃ d ∈ ds, isMutableKind d.1 = true ∧ d.2 = l) ∧
      (lineIssues
        (check_s012 fname (Node.functionDef fn fl args ds)
          [(fname, initLines n)]) fname l).Nodup := by
  have hempty : ∀ (f' : String) (l' : Nat),
      lineIssues [(fname, initLines n)] f' l' = [] := by
    intro f' l'
    by_cases hf : fname = f'
    · subst hf
      exact lineIssues_init fname n l'
    · simp [lineIssues, findFile, hf]
  constructor
  · simp only [check_s012]
    rw [s012_fold_mem fname ds [(fname, initLines n)]
        (fun d hd _ => (hasLine_init fname n d.2).mpr (hl d hd)) fname l
        (Issue.code "S012")]
    rw [hempty fname l]
    simp
  · simp only [check_s012]
    apply s012_fold_nodup
    intro f' l'
    rw [hempty f' l']
    exact List.nodup_nil

/-- Witness for the amended C3: defaults on lines 1 and 2 of a two-line
file. -/
theorem c3_amended_witness :
    (∀ d ∈ [(DefaultKind.dList, 1), (DefaultKind.dOther, 2)],
        1 ≤ d.2 ∧ d.2 ≤ 2) ∧
      ((Issue.code "S012" ∈
          lineIssues
            (check_s012 "a.py"
              (Node.functionDef "f" 1 []
                [(DefaultKind.dList, 1), (DefaultKind.dOther, 2)])
              [("a.py", initLines 2)]) "a.py" 1
        ↔ ∃ d ∈ [(DefaultKind.dList, 1), (DefaultKind.dOther, 2)],
            isMutableKind d.1 = true ∧ d.2 = 1) ∧
        (lineIssues
          (check_s012 "a.py"
            (Node.functionDef "f" 1 []
              [(DefaultKind.dList, 1), (DefaultKind.dOther, 2)])
            [("a.py", initLines 2)]) "a.py" 1).Nodup) :=
  ⟨by decide,
    c3_amended "a.py" "f" 1 2 [] [(DefaultKind.dList, 1), (DefaultKind.dOther, 2)]
      1 (by decide)⟩

/-- Reflexivity of the string order. -/
theorem strLe_refl : ∀ a : List Char, strLe a a = true := by
  intro a
  induction a with
  | nil => rfl
  | cons c cs ih => simp [strLe, ih]

/-- Totality of the string order. -/
theorem strLe_total : ∀ a b : List Char, strLe a b = true ∨ strLe b a = true := by
  intro a
  induction a with
  | nil => intro b; exact Or.inl rfl
  | cons c cs ih =>
    intro b
    cases b with
    | nil => exact Or.inr rfl
    | cons d ds =>
      by_cases hcd : c = d
      · subst hcd
        simp only [strLe, if_pos rfl]
        exact ih ds
      · have hdc : ¬ d = c := fun h => hcd h.symm
        simp only [strLe, if_neg hcd, if_neg hdc]
        rcases lt_or_gt_of_ne hcd with h | h
        · exact Or.inl (by simpa using h)
        · exact Or.inr (by simpa using h)

/-- Transitivity of the string order. -/
theorem strLe_trans : ∀ a b c : List Char,
    strLe a b = true → strLe b c = true → strLe a c = true := by
  intro a
  induction a with
  | nil => intro b c _ _; rfl
  | cons x xs ih =>
    intro b c hab hbc
    cases b with
    | nil => simp [strLe] at hab
    | cons y ys =>
      cases c with
      | nil => simp [strLe] at hbc
      | cons z zs =>
        by_cases hxy : x = y
        · subst hxy
          simp only [strLe, if_pos rfl] at hab
          by_cases hyz : x = z
          · subst hyz
            simp only [strLe, if_pos rfl] at hbc ⊢
            exact ih ys zs hab hbc
          · simp only [strLe, if_neg hyz] at hbc ⊢
            exact hbc
        · simp only [strLe, if_neg hxy] at hab
          by_cases hyz : y = z
          · subst hyz
            simp only [strLe, if_neg hxy]
            exact hab
          · simp only [strLe, if_neg hyz] at hbc
            have hxz : x < z := lt_trans (by simpa using hab) (by simpa using hbc)
            have hne : x ≠ z := ne_of_lt hxz
            simp only [strLe, if_neg hne]
            simpa using hxz

instance : IsTotal (String × FileIssues) fileRel :=
  ⟨fun a b => strLe_total a.1.toList b.1.toList⟩

instance : IsTrans (String × FileIssues) fileRel :=
  ⟨fun a b c => strLe_trans a.1.toList b.1.toList c.1.toList⟩

instance : IsTotal (Nat × List Issue) lineRel :=
  ⟨fun a b => Nat.le_total a.1 b.1⟩

instance : IsTrans (Nat × List Issue) lineRel :=
  ⟨fun a b c => Nat.le_trans⟩

instance : IsTotal Issue issueRel :=
  ⟨fun a b => strLe_total (issueKey a).toList (issueKey b).toList⟩

instance : IsTrans Issue issueRel :=
  ⟨fun a b c => strLe_trans (issueKey a).toList (issueKey b).toList (issueKey c).toList⟩

/-- The record of a finding carries the file it was printed for. -/
theorem issueToRecord_file (f : String) (l : Nat) (iss : Issue) :
    (issueToRecord f l iss).file = f := by
  cases iss <;> rfl

/-- The record of a finding carries its line. -/
theorem issueToRecord_line (f : String) (l : Nat) (iss : Issue) :
    (issueToRecord f l iss).line = l := by
  cases iss <;> rfl

/-- The record of a finding carries its code. -/
theorem issueToRecord_code (f : String) (l : Nat) (iss : Issue) :
    (issueToRecord f l iss).code = issueKey iss := by
  cases iss <;> rfl

/-- Reporting is a permutation of the registry contents: sorting drops and
invents nothing. -/
theorem show_msgs_perm (reg : Registry) :
    (show_msgs reg).Perm (allRecords reg) := by
  rw [show_msgs, allRecords]
  refine List.Perm.trans
    (List.Perm.flatMap_right _ (List.perm_insertionSort fileRel reg)) ?_
  apply List.Perm.flatMap_left
  intro fl _
  refine List.Perm.trans
    (List.Perm.flatMap_right _ (List.perm_insertionSort lineRel fl.2)) ?_
  apply List.Perm.flatMap_left
  intro ls _
  exact List.Perm.map _ (List.perm_insertionSort issueRel ls.2)

/-- The reported sequence is sorted by file, then line, then code, when
file keys and per-file line keys are free of duplicates (as `get_code`
builds them). -/
theorem show_msgs_sorted (reg : Registry)
    (hndf : (reg.map Prod.fst).Nodup)
    (hndl : ∀ fl ∈ reg, (fl.2.map Prod.fst).Nodup) :
    (show_msgs reg).Pairwise recLE := by
  rw [show_msgs]
  rw [List.flatMap_def, List.pairwise_flatten]
  constructor
  · intro blk hblk
    rw [List.mem_map] at hblk
    obtain ⟨fl, hfl, rfl⟩ := hblk
    have hflreg : fl ∈ reg := (List.perm_insertionSort fileRel reg).subset hfl
    rw [List.flatMap_def, List.pairwise_flatten]
    constructor
    · intro blk2 hblk2
      rw [List.mem_map] at hblk2
      obtain ⟨ls, hls, rfl⟩ := hblk2
      rw [List.pairwise_map]
      have hsorted : (List.insertionSort issueRel ls.2).Pairwise issueRel :=
        List.sorted_insertionSort issueRel ls.2
      apply hsorted.imp
      intro a b hab
      refine Or.inr (Or.inr ⟨?_, ?_, ?_⟩)
      · rw [issueToRecord_file, issueToRecord_file]
      · rw [issueToRecord_line, issueToRecord_line]
      · rw [issueToRecord_code, issueToRecord_code]
        exact hab
    · rw [List.pairwise_map]
      have hsorted : (List.insertionSort lineRel fl.2).Pairwise lineRel :=
        List.sorted_insertionSort lineRel fl.2
      have hnd : (List.insertionSort lineRel fl.2).Pairwise
          fun a b => a.1 ≠ b.1 := by
        have hperm := List.perm_insertionSort lineRel fl.2
        have hmap : ((List.insertionSort lineRel fl.2).map Prod.fst).Nodup :=
          (List.Perm.nodup_iff (List.Perm.map Prod.fst hperm)).mpr
            (hndl fl hflreg)
        rw [List.Nodup, List.pairwise_map] at hmap
        exact hmap
      apply (hsorted.and hnd).imp
      intro ls1 ls2 h12 x hx y hy
      rw [List.mem_map] at hx hy
      obtain ⟨i1, -, rfl⟩ := hx
      obtain ⟨i2, -, rfl⟩ := hy
      refine Or.inr (Or.inl ⟨?_, ?_⟩)
      · rw [issueToRecord_file, issueToRecord_file]
      · rw [issueToRecord_line, issueToRecord_line]
        exact lt_of_le_of_ne h12.1 h12.2
  · rw [List.pairwise_map]
    have hsorted : (List.insertionSort fileRel reg).Pairwise fileRel :=
      List.sorted_insertionSort fileRel reg
    have hnd : (List.insertionSort fileRel reg).Pairwise
        fun a b => a.1 ≠ b.1 := by
      have hperm := List.perm_insertionSort fileRel reg
      have hmap : ((List.insertionSort fileRel reg).map Prod.fst).Nodup :=
        (List.Perm.nodup_iff (List.Perm.map Prod.fst hperm)).mpr hndf
      rw [List.Nodup, List.pairwise_map] at hmap
      exact hmap
    apply (hsorted.and hnd).imp
    intro a b hab x hx y hy
    rw [List.mem_flatMap] at hx hy
    obtain ⟨ls1, -, hx⟩ := hx
    obtain ⟨ls2, -, hy⟩ := hy
    rw [List.mem_map] at hx hy
    obtain ⟨i1, -, rfl⟩ := hx
    obtain ⟨i2, -, rfl⟩ := hy
    refine Or.inl ⟨?_, ?_⟩
    · rw [issueToRecord_file, issueToRecord_file]
      exact hab.2
    · rw [issueToRecord_file, issueToRecord_file]
      exact hab.1

/-- Counterexample to claim C5 as stated: on the line `xB = xA = 1` the
walked assignment targets insert `S011`-`xB` before `S011`-`xA`; the sort
key of `show_msgs` compares codes only and Python sort is stable, so the
output keeps `xB` before `xA` even though name order would put `xA`
first: ties of the same code are NOT broken by name. -/
theorem c5_counterexample :
    run [⟨"a.py", ["xB = xA = 1\n".toList],
        some [Node.otherNode, Node.otherNode,
          Node.nameNode "xB" Ctx.store 1, Node.nameNode "xA" Ctx.store 1,
          Node.otherNode]⟩]
      = some [⟨"a.py", 1, "S011", some "xB"⟩, ⟨"a.py", 1, "S011", some "xA"⟩] ∧
      strLe "xA".toList "xB".toList = true ∧ ("xA" : String) ≠ "xB" :=
  ⟨rfl, by decide, by decide⟩

/-- Claim C5 (amended): the reported record sequence lists files in
lexicographic identifier order, lines in ascending order, and issues of
one line in code order; two name-bearing issues with the same code on the
same line stay in the registry set's iteration order (the sort key ignores
names and the sort is stable), so their relative order is NOT the name
order; no finding is dropped: the output is a permutation of the registry
contents. -/
theorem c5_amended (reg : Registry)
    (hndf : (reg.map Prod.fst).Nodup)
    (hndl : ∀ fl ∈ reg, (fl.2.map Prod.fst).Nodup) :
    (show_msgs reg).Perm (allRecords reg) ∧ (show_msgs reg).Pairwise recLE :=
  ⟨show_msgs_perm reg, show_msgs_sorted reg hndf hndl⟩

/-- Witness for the amended C5 on a two-file registry. -/
theorem c5_amended_witness :
    (([("b.py", [(1, [Issue.code "S001"])]),
          ("a.py", [(1, [Issue.coded "S007" "def"]), (2, [])])].map
        Prod.fst).Nodup ∧
      (∀ fl ∈ [("b.py", [(1, [Issue.code "S001"])]),
          ("a.py", [(1, [Issue.coded "S007" "def"]), (2, [])])],
        (fl.2.map Prod.fst).Nodup)) ∧
      ((show_msgs [("b.py", [(1, [Issue.code "S001"])]),
            ("a.py", [(1, [Issue.coded "S007" "def"]), (2, [])])]).Perm
          (allRecords [("b.py", [(1, [Issue.code "S001"])]),
            ("a.py", [(1, [Issue.coded "S007" "def"]), (2, [])])]) ∧
        (show_msgs [("b.py", [(1, [Issue.code "S001"])]),
            ("a.py", [(1, [Issue.coded "S007" "def"]), (2, [])])]).Pairwise
          recLE) :=
  ⟨⟨by decide, by decide⟩,
    c5_amended
      [("b.py", [(1, [Issue.code "S001"])]),
        ("a.py", [(1, [Issue.coded "S007" "def"]), (2, [])])]
      (by decide) (by decide)⟩
